import Mathlib

/-!
Verification of the es-node shard-sync test-support layer against its
natural-language specification.

Bytes are modelled as `Nat` (each value intended `< 256`; masks and moduli are
explicit).  Byte strings (Go `[]byte`, `common.Hash`) are `List Nat`.  Go maps
used as sets are `Finset Nat`; maps with payloads are Lean functions into
`Option`.  Fallible Go calls return `Option`.  Every definition is translated
from the Go source in the repository except where a doc comment says
`Modelled from the spec:`, which marks library code that is not part of the
repository sources and is reconstructed from the specification text.
-/

/-- `HashSizeInContract = 24` (cmd/es-devnet and the ethstorage package). -/
def HashSizeInContract : Nat := 24

/-- `blobEmptyFillingMask = byte(0b10000000)` (protocol test constants). -/
def blobEmptyFillingMask : Nat := 128

/-- Modelled from the spec: `blobFillingMask`, used by `prepareCommit` in
cmd/es-devnet/utils.go, is declared outside the given sources.  The test
constant `blobEmptyFillingMask` for the same flag is `0b10000000`, and the
source comment calls it "the first bit after data hash", so the mask is
modelled as the most significant bit of the flag byte, `0b10000000`. -/
def blobFillingMask : Nat := 128

/-- Go `l[i] |= mask` on a byte slice. -/
def orByte (l : List Nat) (i mask : Nat) : List Nat :=
  l.set i (Nat.lor (l.getD i 0) mask)

/-- `generateMetadata(hash)` (part_000:303-310): a fresh 32-byte meta, bytes
`[0:24]` copied from `hash`, then byte 24 or-ed with `blobEmptyFillingMask`. -/
def generateMetadata (hash : List Nat) : List Nat :=
  orByte (hash.take HashSizeInContract ++ List.replicate (32 - HashSizeInContract) 0)
    HashSizeInContract blobEmptyFillingMask

/-- `prepareCommit(commit)` (cmd/es-devnet/utils.go:161-170): same layout as
`generateMetadata` but with `blobFillingMask`. -/
def prepareCommit (commit : List Nat) : List Nat :=
  orByte (commit.take HashSizeInContract ++ List.replicate (32 - HashSizeInContract) 0)
    HashSizeInContract blobFillingMask

/-- The commitment built inside `fillEmpty` (part_000:249-256): a zero hash
with byte `HashSizeInContract` or-ed with `blobEmptyFillingMask`. -/
def emptyCommit : List Nat :=
  orByte (List.replicate 32 0) HashSizeInContract blobEmptyFillingMask

/-- Modelled from the spec: the per-byte key stream of the encoding function.
The spec treats the scheme as an opaque masking parameterized by
`(kvIndex, minerAddress, encodeType)`; any position-dependent byte stream
keyed by those three parameters realises it. -/
def maskByte (kvIdx miner encodeType i : Nat) : Nat :=
  (kvIdx * 131 + miner * 137 + encodeType * 139 + i * 149 + 17) % 256

/-- Modelled from the spec: XOR of a byte string against the key stream
starting at position `i`.  Self-inverse, which is what makes decode the
inverse of encode under the same parameters. -/
def encodeBytes (kvIdx miner encodeType : Nat) : List Nat → Nat → List Nat
  | [], _ => []
  | b :: bs, i => Nat.xor b (maskByte kvIdx miner encodeType i) ::
      encodeBytes kvIdx miner encodeType bs (i + 1)

/-- Modelled from the spec: `ShardManager.EncodeKV(kvIdx, val, commit, miner,
encodeType)` from the ethstorage package (not in the given sources); rejects
oversized values (`SizeMismatch`) and otherwise masks the value. -/
def EncodeKV (kvSize kvIdx : Nat) (val : List Nat) (miner encodeType : Nat) :
    Option (List Nat) :=
  if val.length ≤ kvSize then some (encodeBytes kvIdx miner encodeType val 0) else none

/-- Modelled from the spec: decoding is the inverse masking with the same
`(kvIndex, miner, encodeType)` parameters. -/
def DecodeKV (kvIdx : Nat) (enc : List Nat) (miner encodeType : Nat) : List Nat :=
  encodeBytes kvIdx miner encodeType enc 0

/-- Modelled from the spec: the prover's `GetRoot` content commitment is
opaque ("polynomial-commitment math ... treated as an opaque prover
capability"); it is modelled as a concrete 32-byte digest whose value on the
all-zero payload is the zero hash, matching the source's use of `common.Hash{}`
as the root of never-written entries. -/
def getRoot (val : List Nat) : List Nat :=
  List.replicate 32 (val.foldl (fun a b => (a * 31 + b) % 256) 0)

/-- Configuration of a shard manager: entry size, owning miner, encode type. -/
structure SMConfig where
  kvSize : Nat
  miner : Nat
  encodeType : Nat

/-- The mutable entry table of a shard manager: per kv index, the stored
(encoded payload, meta commitment) pair. -/
abbrev SMState : Type := Nat → Option (List Nat × List Nat)

/-- Modelled from the spec: `ShardManager.TryWrite(kvIdx, val, commit)` from
the ethstorage package; pads the value with zero bytes to `kvSize`, encodes it
with the shard's miner and encode type, and stores encoded payload plus meta. -/
def TryWrite (cfg : SMConfig) (st : SMState) (kvIdx : Nat) (val commit : List Nat) :
    SMState :=
  fun j =>
    if j = kvIdx then
      some (encodeBytes kvIdx cfg.miner cfg.encodeType
        (val ++ List.replicate (cfg.kvSize - val.length) 0) 0, commit)
    else st j

/-- Modelled from the spec: `ShardManager.TryRead(kvIdx, readLen, commit)`
"reads and decodes, verifying the decoded value's commitment equals
expectedCommitment"; `none` on both absence and `IntegrityMismatch` (the
claims only use the success case). -/
def TryRead (cfg : SMConfig) (st : SMState) (kvIdx readLen : Nat)
    (expected : List Nat) : Option (List Nat) :=
  match st kvIdx with
  | none => none
  | some ec =>
    let v := DecodeKV kvIdx (ec.1.take readLen) cfg.miner cfg.encodeType
    if generateMetadata (getRoot v) = expected then some v else none

/-- `fillEmpty(sm, list)` (part_000:249-256): writes the empty value with the
empty-filled commitment at every index of the list. -/
def fillEmpty (cfg : SMConfig) (st : SMState) (list : List Nat) : SMState :=
  list.foldl (fun s i => TryWrite cfg s i [] emptyCommit) st

/-- `BlobPayloadWithRowData` (part_000:176-183). -/
structure BlobPayloadWithRowData where
  minerAddress : Nat
  blobIndex : Nat
  blobCommit : List Nat
  encodeType : Nat
  encodedBlob : List Nat
  rowData : List Nat

/-- Big-endian `binary.BigEndian.PutUint64`. -/
def beBytes8 (i : Nat) : List Nat :=
  [i / 2 ^ 56 % 256, i / 2 ^ 48 % 256, i / 2 ^ 40 % 256, i / 2 ^ 32 % 256,
   i / 2 ^ 24 % 256, i / 2 ^ 16 % 256, i / 2 ^ 8 % 256, i % 256]

/-- The raw value `makeKVStorage` builds for index `i` (part_000:222-229):
zero bytes of length `kvSize`, and for `i < lastKvIndex` the contract address
in bytes `[0:20]` and the big-endian index in bytes `[20:28]`. -/
def makeKVValue (contractBytes : List Nat) (kvSize lastKvIndex i : Nat) : List Nat :=
  if i < lastKvIndex then
    ((contractBytes.take 20 ++ beBytes8 i) ++ List.replicate (kvSize - 28) 0).take kvSize
  else List.replicate kvSize 0

/-- One entry of `makeKVStorage` (part_000:221-243): the raw value, its root
(the zero hash for indices at or past `lastKvIndex`), the meta commitment from
`generateMetadata`, and the `EncodeKV` encoding (errors discarded, as in the
source's `encodeData, _, _ :=`). -/
def makeKVEntry (contractBytes : List Nat) (kvSize lastKvIndex miner encodeType i : Nat) :
    BlobPayloadWithRowData :=
  let val := makeKVValue contractBytes kvSize lastKvIndex i
  let root := if i < lastKvIndex then getRoot val else List.replicate 32 0
  let commit := generateMetadata root
  let enc := (EncodeKV kvSize i val miner encodeType).getD []
  { minerAddress := miner, blobIndex := i, blobCommit := commit,
    encodeType := encodeType, encodedBlob := enc, rowData := val }

/-- `makeKVStorage` (part_000:214-247) as the map it builds: defined on the
indices `[sidx*kvCount, (sidx+1)*kvCount)` of each listed shard. -/
def makeKVStorage (contractBytes : List Nat) (shards : List Nat)
    (kvSize kvCount lastKvIndex miner encodeType : Nat) :
    Nat → Option BlobPayloadWithRowData :=
  fun i =>
    if shards.any (fun sidx => decide (sidx * kvCount ≤ i ∧ i < (sidx + 1) * kvCount)) then
      some (makeKVEntry contractBytes kvSize lastKvIndex miner encodeType i)
    else none

/-- The `ethereum.NotFound` sentinel returned by the mock reader. -/
inductive EsError where
  | notFound
deriving DecidableEq

/-- `mockStorageManagerReader` (part_000:122-130), restricted to the payload
map that `TryReadEncoded` consults. -/
structure MockStorageManagerReader where
  blobPayloads : Nat → Option BlobPayloadWithRowData

/-- `mockStorageManagerReader.TryReadEncoded(kvIdx, readLen)`
(part_000:132-142): truncates the stored encoded blob to `readLen`, and on an
absent index returns `(nil, false, ethereum.NotFound)`. -/
def TryReadEncoded (s : MockStorageManagerReader) (kvIdx readLen : Nat) :
    List Nat × Bool × Option EsError :=
  match s.blobPayloads kvIdx with
  | some blobPayload =>
    let data := blobPayload.encodedBlob
    (if data.length > readLen then data.take readLen else data, true, none)
  | none => ([], false, some EsError.notFound)

/-- `mockL1Source` (part_000:76-79): the metafile is modelled as a partial map
from index to the 32-byte record read at offset `idx*32` (`none` when the
`ReadAt` call fails). -/
structure MockL1Source where
  lastBlobIndex : Nat
  metaFile : Nat → Option (List Nat)

/-- `mockL1Source.getMetadata(idx)` (part_000:93-103): errors when the read
fails or returns fewer than 32 bytes. -/
def getMetadata (l1 : MockL1Source) (idx : Nat) : Option (List Nat) :=
  match l1.metaFile idx with
  | none => none
  | some bs => if bs.length = 32 then some bs else none

/-- The accumulation loop of `GetKvMetas` (part_000:105-116): appends the meta
of every index whose record can be read, skipping the others. -/
def getKvMetasLoop (l1 : MockL1Source) : List Nat → List (List Nat)
  | [] => []
  | idx :: rest =>
    match getMetadata l1 idx with
    | none => getKvMetasLoop l1 rest
    | some meta => meta :: getKvMetasLoop l1 rest

/-- `mockL1Source.GetKvMetas(kvIndices, blockNumber)` (part_000:105-116):
best-effort metas plus an always-nil error. -/
def GetKvMetas (l1 : MockL1Source) (kvIndices : List Nat) :
    List (List Nat) × Option EsError :=
  (getKvMetasLoop l1 kvIndices, none)

/-- `EthStorageSyncDone.DoneType` values observed by `checkStall`. -/
inductive DoneType where
  | singleShardDone
  | allShardDone
deriving DecidableEq

/-- An `EthStorageSyncDone` event from the completion feed. -/
structure EthStorageSyncDone where
  doneType : DoneType

/-- One iteration's outcome of `checkStall`'s `select` (part_000:387-398):
either the `time.After` timeout fires first, or an event arrives on the
subscribed channel first.  A run of the loop is a finite trace of these. -/
inductive StallStep where
  | timedOut
  | received (ev : EthStorageSyncDone)

/-- Whether a step makes `checkStall` return: a timeout (after calling
`cancel`) or an `AllShardDone` event. -/
def stallTerminal : StallStep → Bool
  | StallStep.timedOut => true
  | StallStep.received ev => decide (ev.doneType = DoneType.allShardDone)

/-- `checkStall` (part_000:383-399) over a trace: returns the number of times
`cancel` was invoked once the loop returns, `none` if the trace is exhausted
with the loop still running.  Each recursive call re-arms `time.After`, which
is the source's timer restart on every received event. -/
def checkStall : List StallStep → Option Nat
  | [] => none
  | StallStep.timedOut :: _ => some 1
  | StallStep.received ev :: rest =>
    if ev.doneType = DoneType.allShardDone then some 0 else checkStall rest

/-- The shard advertisement exchanged at connect time: a `ContractShards`
list, `contract → advertised shard indices`. -/
abbrev ContractShardList : Type := List (Nat × List Nat)

/-- Shards tracked locally for a contract, as the sync client sees them. -/
def lookupShards (tracked : ContractShardList) (c : Nat) : Option (List Nat) :=
  (tracked.find? (fun p => p.1 == c)).map (fun p => p.2)

/-- Modelled from the spec: `SyncClient.AddPeer(peerId, shards)` from the
sync client (not in the given sources) "rejects (returns false ...) if the
peer advertises no shard overlapping any locally-tracked contract": it
accepts exactly when some advertised `(contract, shard)` is also tracked
locally. -/
def AddPeer (tracked peerShards : ContractShardList) : Bool :=
  peerShards.any (fun p =>
    match lookupShards tracked p.1 with
    | some ls => p.2.any (fun s => ls.contains s)
    | none => false)

/-- The shard map recovered from the peerstore record: the Go code starts
from an empty map and only fills it when `Peerstore().Get` succeeds
(part_000:336-342 and 355-361). -/
def shardsOfRecord (record : Option ContractShardList) : ContractShardList :=
  match record with
  | none => []
  | some css => css

/-- The `ConnectedF` notification body (part_000:335-348): reads the peer's
record, calls `AddPeer`, and closes the connection exactly when `AddPeer`
returned false.  Result: (added, connection closed). -/
def connectedHandler (tracked : ContractShardList) (record : Option ContractShardList) :
    Bool × Bool :=
  let shards := shardsOfRecord record
  let added := AddPeer tracked shards
  (added, !added)

/-- The pre-existing-connections loop body (part_000:354-366), textually the
same decision as `connectedHandler`. -/
def existingConnHandler (tracked : ContractShardList) (record : Option ContractShardList) :
    Bool × Bool :=
  let shards := shardsOfRecord record
  let added := AddPeer tracked shards
  (added, !added)

/-- `mergeExcludedList(aList, bList)` (part_000:476-484): keeps the indices of
`aList` that are also in `bList`. -/
def mergeExcludedList (aList bList : Finset Nat) : Finset Nat :=
  aList.filter (fun idx => idx ∈ bList)

/-- The retry loop of `getRandomU64InRange` (part_000:486-501), with the
`rand.Uint64()` draws made explicit as an input list: `r` is the number of
indices still to collect, `m` the set collected so far; draws landing in the
excluded list or already in `m` are skipped.  `none` when the draws run out
before `r` reaches zero. -/
def getRandomLoop (excludedList : Finset Nat) (start e : Nat) :
    List Nat → Nat → Finset Nat → Option (Finset Nat)
  | _, 0, m => some m
  | [], _ + 1, _ => none
  | d :: ds, r + 1, m =>
    let idx := d % (e - start) + start
    if idx ∈ excludedList then getRandomLoop excludedList start e ds (r + 1) m
    else if idx ∈ m then getRandomLoop excludedList start e ds (r + 1) m
    else getRandomLoop excludedList start e ds r (insert idx m)

/-- `getRandomU64InRange(excludedList, start, end, count)` (part_000:486-501)
run on an explicit list of random draws. -/
def getRandomU64InRange (excludedList : Finset Nat) (start e count : Nat)
    (draws : List Nat) : Option (Finset Nat) :=
  getRandomLoop excludedList start e draws count ∅

/-- `subTask` fields compared by the tests (First, Last, next). -/
structure SubTask where
  First : Nat
  Last : Nat
  next : Nat
deriving DecidableEq

/-- `healTask`: its set of indices (a Go map used as a set). -/
structure HealTask where
  Indexes : Finset Nat

/-- `task` fields compared by the tests. -/
structure task where
  Contract : Nat
  ShardId : Nat
  SubTasks : List SubTask
  healTask : HealTask
  done : Bool

/-- The key-match used by the inner scan of `checkTasksWithBaskTasks`. -/
def taskKeyMatch (task1 stask : task) : Bool :=
  task1.Contract == stask.Contract && task1.ShardId == stask.ShardId

/-- `checkTasksWithBaskTasks(baseTasks, tasks)` (part_000:411-459) reduced to
whether it returns a nil error: every base task finds a key-matching task and
passes the subtask-length, heal-length, done, subtask-membership and
heal-membership checks (error messages dropped; only nil-ness is compared by
the claims). -/
def checkTasksWithBaskTasks (baseTasks tasks : List task) : Bool :=
  baseTasks.all (fun task1 =>
    match tasks.find? (taskKeyMatch task1) with
    | none => false
    | some task2 =>
      task1.SubTasks.length == task2.SubTasks.length &&
      task1.healTask.Indexes.card == task2.healTask.Indexes.card &&
      task1.done == task2.done &&
      task1.SubTasks.all (fun subTask1 =>
        task2.SubTasks.any (fun subTask2 =>
          subTask1.First == subTask2.First && subTask1.Last == subTask2.Last &&
          subTask1.next == subTask2.next)) &&
      decide (task1.healTask.Indexes ⊆ task2.healTask.Indexes))

/-- `compareTasks(tasks1, tasks2)` (part_000:401-409): nil exactly when both
directed checks pass. -/
def compareTasks (tasks1 tasks2 : List task) : Bool :=
  checkTasksWithBaskTasks tasks1 tasks2 && checkTasksWithBaskTasks tasks2 tasks1

/-! ## Helper lemmas -/

theorem orByte_meta_take (pre : List Nat) (mask : Nat) (h : pre.length = 24) :
    (orByte (pre ++ List.replicate 8 0) 24 mask).take 24 = pre := by
  unfold orByte
  rw [List.set_append]
  simp [h, List.take_append_of_le_length, List.take_length]

theorem orByte_meta_getD (pre : List Nat) (mask : Nat) (h : pre.length = 24) :
    (orByte (pre ++ List.replicate 8 0) 24 mask).getD 24 0 = Nat.lor 0 mask := by
  unfold orByte
  have hv : (pre ++ List.replicate 8 0).getD 24 0 = 0 := by
    rw [List.getD_eq_getElem?_getD, List.getElem?_append]
    simp [h]
  rw [hv, List.set_append]
  simp [h]
  rw [List.getElem_append_right (by simp [h])]
  simp [h]

/-! ## C2: meta layout -/

/-- C2 counterexample: the claim says the filled flag is the LOW bit of meta
byte 24, but `generateMetadata` of the zero hash produces byte 24 = 128
(`0b10000000`), whose low bit (bit 0) is clear. -/
theorem c2_low_bit_counterexample :
    (generateMetadata (List.replicate 32 0)).getD 24 0 = 128 ∧
    ¬ Nat.testBit ((generateMetadata (List.replicate 32 0)).getD 24 0) 0 := by
  decide

/-- C2 (amended): in a 32-byte meta, bytes `[0:24]` hold the truncated
content commitment, and the filled flag is the HIGH bit of byte 24 (mask
`0b10000000`): `generateMetadata`, `prepareCommit` and the `fillEmpty`
commitment all produce a meta whose bytes `[0:24]` equal the first 24 bytes
of the commitment and whose byte 24 has bit 7 set. -/
theorem c2_meta_layout (hash commit : List Nat)
    (h1 : hash.length = 32) (h2 : commit.length = 32) :
    ((generateMetadata hash).take HashSizeInContract = hash.take HashSizeInContract ∧
      Nat.testBit ((generateMetadata hash).getD HashSizeInContract 0) 7) ∧
    ((prepareCommit commit).take HashSizeInContract = commit.take HashSizeInContract ∧
      Nat.testBit ((prepareCommit commit).getD HashSizeInContract 0) 7) ∧
    (emptyCommit.take HashSizeInContract = List.replicate 24 0 ∧
      Nat.testBit (emptyCommit.getD HashSizeInContract 0) 7) := by
  refine ⟨⟨?_, ?_⟩, ⟨?_, ?_⟩, by decide, by decide⟩
  · have := orByte_meta_take (hash.take 24) 128 (by simp [h1])
    simpa [generateMetadata, HashSizeInContract, blobEmptyFillingMask] using this
  · have := orByte_meta_getD (hash.take 24) 128 (by simp [h1])
    simp [generateMetadata, HashSizeInContract, blobEmptyFillingMask] at this ⊢
    rw [this]
    decide
  · have := orByte_meta_take (commit.take 24) 128 (by simp [h2])
    simpa [prepareCommit, HashSizeInContract, blobFillingMask] using this
  · have := orByte_meta_getD (commit.take 24) 128 (by simp [h2])
    simp [prepareCommit, HashSizeInContract, blobFillingMask] at this ⊢
    rw [this]
    decide

/-- C2 witness: the amended layout at a concrete 32-byte commitment. -/
theorem c2_meta_layout_witness :
    (generateMetadata (List.replicate 32 5)).take HashSizeInContract
      = (List.replicate 32 5).take HashSizeInContract ∧
    Nat.testBit ((prepareCommit (List.replicate 32 9)).getD HashSizeInContract 0) 7 :=
  ⟨(c2_meta_layout (List.replicate 32 5) (List.replicate 32 9) (by decide) (by decide)).1.1,
   (c2_meta_layout (List.replicate 32 5) (List.replicate 32 9) (by decide) (by decide)).2.1.2⟩

/-! ## C8: mergeExcludedList -/

/-- C8: `mergeExcludedList` computes set intersection, hence it is
commutative and idempotent. -/
theorem c8_mergeExcludedList_inter (a b : Finset Nat) :
    mergeExcludedList a b = a ∩ b ∧
    mergeExcludedList a b = mergeExcludedList b a ∧
    mergeExcludedList a a = a := by
  have h : ∀ x y : Finset Nat, mergeExcludedList x y = x ∩ y := by
    intro x y
    simp [mergeExcludedList, Finset.filter_mem_eq_inter]
  refine ⟨h a b, ?_, ?_⟩
  · rw [h, h, Finset.inter_comm]
  · rw [h, Finset.inter_self]

/-! ## C3: TryReadEncoded -/

/-- C3 counterexample: the claim says an absent index yields `found=false`
with a nil error, but `TryReadEncoded` on a reader with an empty payload map
returns the non-nil sentinel `ethereum.NotFound`. -/
theorem c3_nil_error_counterexample :
    (TryReadEncoded ⟨fun _ => none⟩ 0 5).2.2 = some EsError.notFound ∧
    (TryReadEncoded ⟨fun _ => none⟩ 0 5).2.1 = false := by
  decide

/-- C3 (amended): `TryReadEncoded(kvIndex, maxLen)` returns at most `maxLen`
bytes of the stored encoded blob (truncating when the blob is longer), and
for every index absent from the payload map it returns
`(nil, found=false, ethereum.NotFound)` — found=false together with the
non-nil NotFound sentinel error, not a nil error. -/
theorem c3_tryReadEncoded (s : MockStorageManagerReader) (kvIdx readLen : Nat) :
    (TryReadEncoded s kvIdx readLen).1.length ≤ readLen ∧
    (s.blobPayloads kvIdx = none →
      TryReadEncoded s kvIdx readLen = ([], false, some EsError.notFound)) ∧
    (∀ bp, s.blobPayloads kvIdx = some bp →
      (TryReadEncoded s kvIdx readLen).2.1 = true ∧
      (TryReadEncoded s kvIdx readLen).2.2 = none ∧
      (TryReadEncoded s kvIdx readLen).1 =
        (if bp.encodedBlob.length > readLen then bp.encodedBlob.take readLen
         else bp.encodedBlob)) := by
  refine ⟨?_, ?_, ?_⟩
  · unfold TryReadEncoded
    match hb : s.blobPayloads kvIdx with
    | none => simp
    | some bp =>
      simp only []
      split
      · simp [List.length_take]
      · omega
  · intro h
    unfold TryReadEncoded
    rw [h]
  · intro bp h
    unfold TryReadEncoded
    rw [h]
    exact ⟨rfl, rfl, rfl⟩

/-- C3 witness: the amended behavior at a concrete reader and index. -/
theorem c3_tryReadEncoded_witness :
    TryReadEncoded ⟨fun _ => none⟩ 3 7 = ([], false, some EsError.notFound) :=
  (c3_tryReadEncoded ⟨fun _ => none⟩ 3 7).2.1 rfl

/-! ## C4: GetKvMetas is best-effort -/

/-- C4: `GetKvMetas` returns one 32-byte meta per readable index in input
order (it is exactly the `filterMap` of `getMetadata` over the indices, so
its length is the number of readable indices), and its error is always nil. -/
theorem c4_getKvMetas (l1 : MockL1Source) (kvIndices : List Nat) :
    (GetKvMetas l1 kvIndices).2 = none ∧
    (GetKvMetas l1 kvIndices).1 = kvIndices.filterMap (getMetadata l1) ∧
    (GetKvMetas l1 kvIndices).1.length
      = (kvIndices.filter (fun idx => (getMetadata l1 idx).isSome)).length ∧
    (∀ m ∈ (GetKvMetas l1 kvIndices).1, m.length = 32) := by
  have hmap : ∀ l : List Nat, getKvMetasLoop l1 l = l.filterMap (getMetadata l1) := by
    intro l
    induction l with
    | nil => rfl
    | cons idx rest ih =>
      unfold getKvMetasLoop
      rw [List.filterMap_cons]
      match h : getMetadata l1 idx with
      | none => simpa using ih
      | some meta => simpa using ih
  have hlen : ∀ l : List Nat,
      (getKvMetasLoop l1 l).length
        = (l.filter (fun idx => (getMetadata l1 idx).isSome)).length := by
    intro l
    induction l with
    | nil => rfl
    | cons idx rest ih =>
      unfold getKvMetasLoop
      rw [List.filter_cons]
      match h : getMetadata l1 idx with
      | none => simp [h, ih]
      | some meta => simp [h, ih]
  have h32 : ∀ idx m, getMetadata l1 idx = some m → m.length = 32 := by
    intro idx m h
    unfold getMetadata at h
    match hf : l1.metaFile idx with
    | none => rw [hf] at h; exact absurd h (by simp)
    | some bs =>
      rw [hf] at h
      by_cases hl : bs.length = 32
      · simp [hl] at h
        subst h
        exact hl
      · simp [hl] at h
  refine ⟨rfl, hmap kvIndices, ?_, ?_⟩
  · exact hlen kvIndices
  · intro m hm
    rw [show (GetKvMetas l1 kvIndices).1 = getKvMetasLoop l1 kvIndices from rfl,
      hmap kvIndices] at hm
    obtain ⟨idx, _, hidx⟩ := List.mem_filterMap.mp hm
    exact h32 idx m hidx

/-- C4 witness: a concrete source with one readable index out of two. -/
theorem c4_getKvMetas_witness :
    (List.replicate 32 7 : List Nat).length = 32 :=
  (c4_getKvMetas ⟨0, fun i => if i = 0 then some (List.replicate 32 7) else none⟩
    [0, 3]).2.2.2 (List.replicate 32 7) (by decide)

/-! ## C7: stall detection -/

/-- C7: over any finite trace of `select` outcomes, `checkStall` returns as
soon as a timeout or an all-shards-done event occurs (it never keeps looping
once either condition holds); when the first such trigger is the timeout it
invokes the cancellation callback exactly once, and when it is an
all-shards-done event it returns without invoking the callback.  Each
non-terminal event re-enters the loop, re-arming the `time.After` timer. -/
theorem c7_checkStall (trace : List StallStep) :
    (trace.any stallTerminal = true → (checkStall trace).isSome = true) ∧
    (trace.find? stallTerminal = some StallStep.timedOut → checkStall trace = some 1) ∧
    (∀ ev, trace.find? stallTerminal = some (StallStep.received ev) →
      checkStall trace = some 0) ∧
    (checkStall trace = none → ∀ s ∈ trace, stallTerminal s = false) := by
  induction trace with
  | nil => simp [checkStall]
  | cons s rest ih =>
    obtain ⟨hAny, hTo, hEv, hNone⟩ := ih
    match s with
    | StallStep.timedOut =>
      refine ⟨?_, ?_, ?_, ?_⟩ <;> simp [checkStall, stallTerminal, List.find?]
    | StallStep.received ev =>
      obtain ⟨dt⟩ := ev
      cases dt with
      | allShardDone =>
        refine ⟨?_, ?_, ?_, ?_⟩ <;> simp [checkStall, stallTerminal, List.find?]
      | singleShardDone =>
        refine ⟨?_, ?_, ?_, ?_⟩
        · intro h
          simp only [List.any_cons, stallTerminal] at h
          simp only [checkStall]
          simpa using hAny (by simpa using h)
        · intro h
          simp only [List.find?, stallTerminal] at h
          simp only [checkStall]
          simpa using hTo (by simpa using h)
        · intro ev2 h
          simp only [List.find?, stallTerminal] at h
          simp only [checkStall]
          simpa using hEv ev2 (by simpa using h)
        · intro h s hs
          simp only [checkStall] at h
          rcases List.mem_cons.mp hs with rfl | hs2
          · simp [stallTerminal]
          · exact hNone (by simpa using h) s hs2

/-- C7 witness: a trace with one progress event followed by a timeout stalls
with exactly one cancellation. -/
theorem c7_checkStall_witness :
    checkStall [StallStep.received ⟨DoneType.singleShardDone⟩, StallStep.timedOut]
      = some 1 :=
  (c7_checkStall [StallStep.received ⟨DoneType.singleShardDone⟩,
    StallStep.timedOut]).2.1 (by simp [List.find?, stallTerminal])

/-! ## C6: addPeer and connection dropping -/

/-- C6: in both the connect-notification path and the pre-existing-connections
path the caller closes the connection exactly when `AddPeer` returns false and
keeps it open exactly when `AddPeer` returns true; and `AddPeer` accepts
exactly when the peer advertises some `(contract, shard)` pair that is also
tracked locally — in particular it returns false whenever the peer advertises
no shard overlapping any locally-tracked contract. -/
theorem c6_addPeer_drop (tracked : ContractShardList) (record : Option ContractShardList)
    (peerShards : ContractShardList) :
    (connectedHandler tracked record).2 = !AddPeer tracked (shardsOfRecord record) ∧
    (connectedHandler tracked record).1 = AddPeer tracked (shardsOfRecord record) ∧
    (existingConnHandler tracked record).2 = !AddPeer tracked (shardsOfRecord record) ∧
    (existingConnHandler tracked record).1 = AddPeer tracked (shardsOfRecord record) ∧
    (AddPeer tracked peerShards = true ↔
      ∃ p ∈ peerShards, ∃ ls, lookupShards tracked p.1 = some ls ∧ ∃ s ∈ p.2, s ∈ ls) := by
  refine ⟨rfl, rfl, rfl, rfl, ?_⟩
  unfold AddPeer
  rw [List.any_eq_true]
  constructor
  · rintro ⟨p, hp, hmatch⟩
    refine ⟨p, hp, ?_⟩
    match hl : lookupShards tracked p.1 with
    | none => rw [hl] at hmatch; exact absurd hmatch (by simp)
    | some ls =>
      rw [hl] at hmatch
      simp only [List.any_eq_true] at hmatch
      obtain ⟨x, hx, hcont⟩ := hmatch
      exact ⟨ls, rfl, x, hx, by simpa using hcont⟩
  · rintro ⟨p, hp, ls, hl, x, hx, hmem⟩
    refine ⟨p, hp, ?_⟩
    rw [hl]
    simp only [List.any_eq_true]
    exact ⟨x, hx, by simpa using hmem⟩

/-! ## C9: getRandomU64InRange -/

theorem getRandomLoop_post (excludedList : Finset Nat) (start e : Nat)
    (hse : start < e) :
    ∀ (draws : List Nat) (r : Nat) (m0 m : Finset Nat),
      (∀ x ∈ m0, start ≤ x ∧ x < e ∧ x ∉ excludedList) →
      getRandomLoop excludedList start e draws r m0 = some m →
      m.card = m0.card + r ∧ ∀ x ∈ m, start ≤ x ∧ x < e ∧ x ∉ excludedList := by
  intro draws
  induction draws with
  | nil =>
    intro r m0 m h0 hrun
    match r with
    | 0 =>
      obtain rfl : m0 = m := by simpa [getRandomLoop] using hrun
      exact ⟨rfl, h0⟩
    | _ + 1 => exact absurd hrun (by simp [getRandomLoop])
  | cons d ds ih =>
    intro r m0 m h0 hrun
    match r with
    | 0 =>
      obtain rfl : m0 = m := by simpa [getRandomLoop] using hrun
      exact ⟨rfl, h0⟩
    | r + 1 =>
      rw [getRandomLoop] at hrun
      by_cases hex : d % (e - start) + start ∈ excludedList
      · rw [if_pos hex] at hrun
        exact ih (r + 1) m0 m h0 hrun
      · rw [if_neg hex] at hrun
        by_cases hm : d % (e - start) + start ∈ m0
        · rw [if_pos hm] at hrun
          exact ih (r + 1) m0 m h0 hrun
        · rw [if_neg hm] at hrun
          have hidx : start ≤ d % (e - start) + start ∧ d % (e - start) + start < e ∧
              d % (e - start) + start ∉ excludedList := by
            refine ⟨Nat.le_add_left _ _, ?_, hex⟩
            have := Nat.mod_lt d (show 0 < e - start by omega)
            omega
          have h0x : ∀ x ∈ insert (d % (e - start) + start) m0,
              start ≤ x ∧ x < e ∧ x ∉ excludedList := by
            intro x hx
            rcases Finset.mem_insert.mp hx with rfl | hx2
            · exact hidx
            · exact h0 x hx2
          obtain ⟨hcard, hall⟩ := ih r (insert (d % (e - start) + start) m0) m h0x hrun
          refine ⟨?_, hall⟩
          rw [hcard, Finset.card_insert_of_not_mem hm]
          omega

/-- C9: whenever `getRandomU64InRange` completes (it consumes an explicit
list of random draws; the Go loop retries until `count` indices are
collected), the returned set has exactly `count` pairwise-distinct indices,
each in `[start, end)` and none in the excluded list.  Any completed run also
exhibits at least `count` available indices, so the claim's availability
precondition is subsumed by termination. -/
theorem c9_getRandomU64InRange (excludedList : Finset Nat) (start e count : Nat)
    (draws : List Nat) (m : Finset Nat) (hse : start < e)
    (hrun : getRandomU64InRange excludedList start e count draws = some m) :
    m.card = count ∧ ∀ x ∈ m, start ≤ x ∧ x < e ∧ x ∉ excludedList := by
  have h := getRandomLoop_post excludedList start e hse draws count ∅ m
    (by simp) hrun
  simpa using h

/-- C9 witness: two draws in `[10, 14)` with an empty excluded list. -/
theorem c9_getRandomU64InRange_witness :
    ({11, 10} : Finset Nat).card = 2 ∧
    ∀ x ∈ ({11, 10} : Finset Nat), 10 ≤ x ∧ x < 14 ∧ x ∉ (∅ : Finset Nat) :=
  c9_getRandomU64InRange ∅ 10 14 2 [0, 1] {11, 10} (by decide) (by decide)

/-! ## C10: compareTasks -/

theorem find_taskKeyMatch_self (l : List task)
    (hpw : l.Pairwise fun x y => ¬(x.Contract = y.Contract ∧ x.ShardId = y.ShardId))
    (t : task) (ht : t ∈ l) : l.find? (taskKeyMatch t) = some t := by
  induction l with
  | nil => cases ht
  | cons hd rest ih =>
    have hpw2 := List.pairwise_cons.mp hpw
    rcases List.mem_cons.mp ht with rfl | ht2
    · have hkey : taskKeyMatch t t = true := by simp [taskKeyMatch]
      rw [List.find?_cons, hkey]
    · have hne : ¬(hd.Contract = t.Contract ∧ hd.ShardId = t.ShardId) := hpw2.1 t ht2
      have hkey : taskKeyMatch t hd = false := by
        by_cases hc : t.Contract = hd.Contract
        · by_cases hs : t.ShardId = hd.ShardId
          · exact absurd ⟨hc.symm, hs.symm⟩ hne
          · simp [taskKeyMatch, hs]
        · simp [taskKeyMatch, hc]
      rw [List.find?_cons, hkey]
      exact ih hpw2.2 ht2

theorem checkTasks_self (a : List task)
    (hpw : a.Pairwise fun x y => ¬(x.Contract = y.Contract ∧ x.ShardId = y.ShardId)) :
    checkTasksWithBaskTasks a a = true := by
  rw [checkTasksWithBaskTasks, List.all_eq_true]
  intro t ht
  rw [find_taskKeyMatch_self a hpw t ht]
  simp only [Bool.and_eq_true, beq_self_eq_true, decide_eq_true_eq]
  refine ⟨⟨⟨⟨by simp, by simp⟩, by simp⟩, ?_⟩, Finset.Subset.refl _⟩
  rw [List.all_eq_true]
  intro s1 hs1
  rw [List.any_eq_true]
  exact ⟨s1, hs1, by simp⟩

/-- C10: `compareTasks` is symmetric in success for ALL task lists (it
returns nil exactly when the swapped call does), and on a task list with
pairwise-distinct `(Contract, ShardId)` keys, comparing the list with itself
returns nil (`true` models a nil error; the error messages are dropped). -/
theorem c10_compareTasks (a b : List task) :
    (compareTasks a b = true ↔ compareTasks b a = true) ∧
    ((a.Pairwise fun x y => ¬(x.Contract = y.Contract ∧ x.ShardId = y.ShardId)) →
      compareTasks a a = true) := by
  constructor
  · unfold compareTasks
    rw [Bool.and_comm]
  · intro hpw
    unfold compareTasks
    rw [checkTasks_self a hpw]
    simp

/-- C10 witness: a concrete singleton task list compared with itself, with
the pairwise-distinct-keys hypothesis discharged concretely. -/
theorem c10_compareTasks_witness :
    compareTasks [⟨1, 2, [], ⟨∅⟩, false⟩] [⟨1, 2, [], ⟨∅⟩, false⟩] = true :=
  (c10_compareTasks [⟨1, 2, [], ⟨∅⟩, false⟩] []).2 (by simp)

/-! ## Storage-layer lemmas for C1 and C5 -/

theorem encodeBytes_self_inverse (k m e : Nat) :
    ∀ (l : List Nat) (i : Nat), encodeBytes k m e (encodeBytes k m e l i) i = l := by
  intro l
  induction l with
  | nil => intro i; rfl
  | cons b bs ih =>
    intro i
    simp only [encodeBytes, List.cons.injEq]
    exact ⟨Nat.xor_cancel_right _ _, ih (i + 1)⟩

theorem length_encodeBytes (k m e : Nat) :
    ∀ (l : List Nat) (i : Nat), (encodeBytes k m e l i).length = l.length := by
  intro l
  induction l with
  | nil => intro i; rfl
  | cons b bs ih => intro i; simp [encodeBytes, ih]

theorem getRoot_replicate_zero (n : Nat) :
    getRoot (List.replicate n 0) = List.replicate 32 0 := by
  unfold getRoot
  have h : ∀ k : Nat, (List.replicate k 0).foldl (fun a b => (a * 31 + b) % 256) 0 = 0 := by
    intro k
    induction k with
    | zero => rfl
    | succ k ih => simpa [List.replicate_succ, List.foldl_cons] using ih
  rw [h n]

theorem generateMetadata_zero : generateMetadata (List.replicate 32 0) = emptyCommit := by
  decide

/-- A stored entry whose payload is the encoding of `val` reads back as `val`
when queried with the commitment recomputed from `val`. -/
theorem tryRead_entry (cfg : SMConfig) (st : SMState) (kvIdx : Nat)
    (val c : List Nat) (hlen : val.length = cfg.kvSize)
    (hst : st kvIdx = some (encodeBytes kvIdx cfg.miner cfg.encodeType val 0, c)) :
    TryRead cfg st kvIdx cfg.kvSize (generateMetadata (getRoot val)) = some val := by
  unfold TryRead
  rw [hst]
  have htake : (encodeBytes kvIdx cfg.miner cfg.encodeType val 0).take cfg.kvSize
      = encodeBytes kvIdx cfg.miner cfg.encodeType val 0 := by
    rw [show cfg.kvSize = (encodeBytes kvIdx cfg.miner cfg.encodeType val 0).length by
      rw [length_encodeBytes]; omega]
    exact List.take_length _
  simp [htake, DecodeKV, encodeBytes_self_inverse]

theorem length_beBytes8 (i : Nat) : (beBytes8 i).length = 8 := by
  simp [beBytes8]

theorem length_makeKVValue (contractBytes : List Nat) (kvSize lastKvIndex i : Nat)
    (hcb : contractBytes.length = 20) :
    (makeKVValue contractBytes kvSize lastKvIndex i).length = kvSize := by
  unfold makeKVValue
  split
  · simp [List.length_take, List.length_append, length_beBytes8, hcb]
    omega
  · simp

/-! ## C1: encode/decode round-trip -/

/-- C1: for every value of length at most `kvSize` and every
`(kvIndex, miner, encodeType)`, decoding the encoding with the same
parameters yields the original value; and concretely, when a payload built
by `makeKVStorage` has its encoded bytes stored, `TryRead` at that index
with the matching commitment returns the original raw value. -/
theorem c1_roundtrip :
    (∀ (kvSize kvIdx miner encodeType : Nat) (val : List Nat),
      val.length ≤ kvSize →
      EncodeKV kvSize kvIdx val miner encodeType
        = some (encodeBytes kvIdx miner encodeType val 0) ∧
      DecodeKV kvIdx (encodeBytes kvIdx miner encodeType val 0) miner encodeType
        = val) ∧
    (∀ (contractBytes : List Nat) (shards : List Nat)
      (kvSize kvCount lastKvIndex miner encodeType i : Nat)
      (bp : BlobPayloadWithRowData),
      contractBytes.length = 20 →
      makeKVStorage contractBytes shards kvSize kvCount lastKvIndex miner encodeType i
        = some bp →
      ∀ st : SMState, st i = some (bp.encodedBlob, bp.blobCommit) →
      TryRead ⟨kvSize, miner, encodeType⟩ st i kvSize bp.blobCommit
        = some bp.rowData) := by
  constructor
  · intro kvSize kvIdx miner encodeType val hle
    exact ⟨by simp [EncodeKV, hle], encodeBytes_self_inverse _ _ _ val 0⟩
  · intro contractBytes shards kvSize kvCount lastKvIndex miner encodeType i bp
      hcb hmk st hst
    unfold makeKVStorage at hmk
    split at hmk
    case isFalse => exact absurd hmk (by simp)
    case isTrue =>
      have hbp : bp = makeKVEntry contractBytes kvSize lastKvIndex miner encodeType i := by
        injection hmk with h
        exact h.symm
      subst hbp
      set val := makeKVValue contractBytes kvSize lastKvIndex i with hval
      have hlen : val.length = kvSize := length_makeKVValue _ _ _ _ hcb
      have hroot : (if i < lastKvIndex then getRoot val else List.replicate 32 0)
          = getRoot val := by
        split
        · rfl
        · rw [hval]
          unfold makeKVValue
          rw [if_neg (by omega), getRoot_replicate_zero]
      have henc : (makeKVEntry contractBytes kvSize lastKvIndex miner encodeType i).encodedBlob
          = encodeBytes i miner encodeType val 0 := by
        simp only [makeKVEntry, EncodeKV, ← hval, hlen, le_refl, if_pos, Option.getD_some]
      have hcommit : (makeKVEntry contractBytes kvSize lastKvIndex miner encodeType i).blobCommit
          = generateMetadata (getRoot val) := by
        simp only [makeKVEntry, ← hval, hroot]
      have hrow : (makeKVEntry contractBytes kvSize lastKvIndex miner encodeType i).rowData
          = val := rfl
      rw [henc, hcommit] at hst
      rw [hcommit, hrow]
      exact tryRead_entry ⟨kvSize, miner, encodeType⟩ st i val _ hlen hst

/-- C1 witness: a concrete round-trip and a concrete `makeKVStorage` entry
read back through `TryRead`. -/
theorem c1_roundtrip_witness :
    DecodeKV 7 (encodeBytes 7 3 4 [5, 200] 0) 3 4 = [5, 200] ∧
    TryRead ⟨2, 3, 4⟩
      (fun j => if j = 0 then
          some ((makeKVEntry (List.replicate 20 1) 2 1 3 4 0).encodedBlob,
            (makeKVEntry (List.replicate 20 1) 2 1 3 4 0).blobCommit)
        else none)
      0 2 (makeKVEntry (List.replicate 20 1) 2 1 3 4 0).blobCommit
      = some (makeKVEntry (List.replicate 20 1) 2 1 3 4 0).rowData :=
  ⟨(c1_roundtrip.1 2 7 3 4 [5, 200] (by decide)).2,
   c1_roundtrip.2 (List.replicate 20 1) [0] 2 1 1 3 4 0 _ (by decide) rfl _ rfl⟩

/-! ## C5: indices past the watermark hold the empty pattern -/

theorem fillEmpty_of_not_mem (cfg : SMConfig) (list : List Nat) :
    ∀ (st : SMState) (i : Nat), i ∉ list → fillEmpty cfg st list i = st i := by
  induction list with
  | nil => intro st i _; rfl
  | cons x xs ih =>
    intro st i hmem
    have hx : i ≠ x := fun h => hmem (h ▸ List.mem_cons_self x xs)
    have hxs : i ∉ xs := fun h => hmem (List.mem_cons_of_mem x h)
    show fillEmpty cfg (TryWrite cfg st x [] emptyCommit) xs i = st i
    rw [ih _ i hxs]
    simp [TryWrite, hx]

theorem fillEmpty_of_mem (cfg : SMConfig) (list : List Nat) :
    ∀ (st : SMState) (i : Nat), i ∈ list →
      fillEmpty cfg st list i
        = some (encodeBytes i cfg.miner cfg.encodeType (List.replicate cfg.kvSize 0) 0,
            emptyCommit) := by
  induction list with
  | nil => intro st i h; cases h
  | cons x xs ih =>
    intro st i hmem
    show fillEmpty cfg (TryWrite cfg st x [] emptyCommit) xs i = _
    by_cases hxs : i ∈ xs
    · exact ih _ i hxs
    · have hx : i = x := by
        rcases List.mem_cons.mp hmem with h | h
        · exact h
        · exact absurd h hxs
      rw [fillEmpty_of_not_mem cfg xs _ i hxs]
      subst hx
      simp [TryWrite]

/-- C5: after `fillEmpty` runs over a list of indices (the indices at or
beyond the last-valid-index watermark), every index in the list holds the
empty pattern locally: the stored meta is the empty commitment (zero hash
with the filled bit, mask `0b10000000`, set at byte 24), the stored payload
is the encoding of the all-zero value, and `TryRead` at that index with the
empty commitment returns the all-zero value of the entry length.  `fillEmpty`
writes these entries from the empty value alone; no peer request appears
anywhere in its computation. -/
theorem c5_fillEmpty_pattern (cfg : SMConfig) (st : SMState) (list : List Nat)
    (i : Nat) (hmem : i ∈ list) :
    fillEmpty cfg st list i
      = some (encodeBytes i cfg.miner cfg.encodeType (List.replicate cfg.kvSize 0) 0,
          emptyCommit) ∧
    TryRead cfg (fillEmpty cfg st list) i cfg.kvSize emptyCommit
      = some (List.replicate cfg.kvSize 0) ∧
    Nat.testBit (emptyCommit.getD HashSizeInContract 0) 7 ∧
    emptyCommit.take HashSizeInContract = List.replicate 24 0 := by
  refine ⟨fillEmpty_of_mem cfg list st i hmem, ?_, by decide, by decide⟩
  have h := tryRead_entry cfg (fillEmpty cfg st list) i (List.replicate cfg.kvSize 0)
    emptyCommit (by simp) (fillEmpty_of_mem cfg list st i hmem)
  rwa [getRoot_replicate_zero, generateMetadata_zero] at h

/-- C5 witness: concrete shard manager, two filled indices. -/
theorem c5_fillEmpty_pattern_witness :
    TryRead ⟨3, 5, 6⟩ (fillEmpty ⟨3, 5, 6⟩ (fun _ => none) [2, 4]) 4 3 emptyCommit
      = some (List.replicate 3 0) :=
  (c5_fillEmpty_pattern ⟨3, 5, 6⟩ (fun _ => none) [2, 4] 4 (by decide)).2.1

/-- C6 witness: a peer advertising no overlapping shard is rejected and its
connection closed, on the connect-notification path at concrete inputs. -/
theorem c6_addPeer_drop_witness :
    (connectedHandler [(1, [0, 2])] (some [(1, [3])])).2
      = !AddPeer [(1, [0, 2])] (shardsOfRecord (some [(1, [3])])) :=
  (c6_addPeer_drop [(1, [0, 2])] (some [(1, [3])]) [(1, [3])]).1
